import Mathlib

attribute [local semireducible] Rat.add Rat.mul Rat.sub Rat.inv Rat.ofScientific

/-!
# Verification of the LennyTapes hybrid retrieval engine and evaluation harness

Shallow embedding of the retrieval and evaluation code:

* `hybrid_search` / `text_to_or_tsquery` — the PL/pgSQL functions from
  `scripts/migrate-hybrid-search.sql`, modelled over an explicit list of
  `Segment` rows.  Per-query quantities (cosine similarity against the query
  embedding, full-text match flag and `ts_rank_cd` value against the query's
  tsquery) are carried as fields of each row; SQL `ORDER BY` is modelled as a
  stable (insertion) sort, `FLOAT` arithmetic as exact rationals.
* `searchSegments` — the fallback logic of `src/lib/search.ts`, modelled over
  the outcomes of the two Supabase RPC calls.
* `calculateNDCG` — from `src/scripts/evaluate-search.ts`, over real numbers.
* `checkThresholds`, `evaluateWithRagas`, `evaluateBatch`,
  `aggregateResults` — from `src/lib/evaluation/ragas.ts`.
-/

namespace LennyTapes

/-! ## The `segments` table, per query

A row of the `segments` table together with the query-dependent values the SQL
of `hybrid_search` computes from it:

* `sim`       : `1 - (s.embedding <=> query_embedding)` (cosine similarity);
* `lexMatch`  : `to_tsvector('english', s.text) @@ or_tsquery`;
* `lexRank`   : `ts_rank_cd(to_tsvector('english', s.text), or_tsquery)`.
-/
structure Segment where
  id : ℕ
  hasEmbedding : Bool
  sim : ℚ
  lexMatch : Bool
  lexRank : ℚ
deriving DecidableEq

/-- Output row shape of `hybrid_search` (the score-carrying columns). -/
structure OutRow where
  id : ℕ
  semantic_similarity : ℚ
  keyword_rank : ℚ
  combined_score : ℚ
deriving DecidableEq

/-- The relation `ORDER BY combined_score DESC`: a relation on output rows. -/
def scoreDescRel (a b : OutRow) : Prop :=
  b.combined_score ≤ a.combined_score

instance scoreDescRelDecidable : DecidableRel scoreDescRel :=
  fun a b => inferInstanceAs (Decidable (b.combined_score ≤ a.combined_score))

instance scoreDescRelTotal : IsTotal OutRow scoreDescRel :=
  ⟨fun a b => le_total b.combined_score a.combined_score⟩

instance scoreDescRelTrans : IsTrans OutRow scoreDescRel :=
  ⟨fun _ _ _ h1 h2 => le_trans h2 h1⟩

/-- The relation `ORDER BY s.embedding <=> query_embedding` (ascending distance, i.e.
descending similarity) as a relation on segments. -/
def simDescRel (a b : Segment) : Prop :=
  b.sim ≤ a.sim

instance simDescRelDecidable : DecidableRel simDescRel :=
  fun a b => inferInstanceAs (Decidable (b.sim ≤ a.sim))

instance simDescRelTotal : IsTotal Segment simDescRel :=
  ⟨fun a b => le_total b.sim a.sim⟩

instance simDescRelTrans : IsTrans Segment simDescRel :=
  ⟨fun _ _ _ h1 h2 => le_trans h2 h1⟩

/-- The query `SELECT MAX(ts_rank_cd(...)) ... WHERE ... @@ or_tsquery`, followed by
`IF max_keyword_rank IS NULL OR max_keyword_rank = 0 THEN max_keyword_rank := 1`. -/
def maxKeywordRank (segs : List Segment) : ℚ :=
  match ((segs.filter (fun s => s.lexMatch)).map (fun s => s.lexRank)).max? with
  | none => 1
  | some m => if m = 0 then 1 else m

/-- The `semantic` CTE: segments with an embedding whose similarity exceeds
`match_threshold`, ordered by similarity descending, limited to
`match_count * 5`. -/
def semanticCte (segs : List Segment) (match_count : ℕ) (match_threshold : ℚ) :
    List Segment :=
  (List.insertionSort simDescRel
      (segs.filter (fun s => s.hasEmbedding && decide (match_threshold < s.sim)))).take
    (match_count * 5)

/-- The `keyword` CTE: lexically matching segments paired with their
`ts_rank_cd` value normalized by `max_keyword_rank`. -/
def keywordCte (segs : List Segment) : List (ℕ × ℚ) :=
  (segs.filter (fun s => s.lexMatch)).map
    (fun s => (s.id, s.lexRank / maxKeywordRank segs))

/-- The `keyword_only` CTE: lexically matching segments with an embedding whose
id is `NOT IN` the `semantic` CTE, limited to `match_count`. -/
def keywordOnlyCte (segs : List Segment) (match_count : ℕ) (match_threshold : ℚ) :
    List Segment :=
  (segs.filter (fun s =>
      s.hasEmbedding && s.lexMatch &&
        !((semanticCte segs match_count match_threshold).map (fun t => t.id)).contains s.id)).take
    match_count

/-- The `combined` CTE: `semantic UNION keyword_only` (the two sides are
disjoint by id when the table's ids are distinct, so the `UNION` is an append). -/
def combinedCte (segs : List Segment) (match_count : ℕ) (match_threshold : ℚ) :
    List Segment :=
  semanticCte segs match_count match_threshold ++
    keywordOnlyCte segs match_count match_threshold

/-- The final `SELECT` list of `hybrid_search` for one combined row:
`LEFT JOIN keyword kw ON c.id = kw.id` with
`COALESCE(kw.normalized_rank, 0)` and
`(c.sim * semantic_weight) + (COALESCE(kw.normalized_rank, 0) * keyword_weight)`. -/
def scoreRow (segs : List Segment) (semantic_weight keyword_weight : ℚ)
    (c : Segment) : OutRow :=
  let krank : ℚ :=
    match (keywordCte segs).find? (fun p => p.1 == c.id) with
    | some p => p.2
    | none => 0
  { id := c.id
    semantic_similarity := c.sim
    keyword_rank := krank
    combined_score := c.sim * semantic_weight + krank * keyword_weight }

/-- All scored rows, ordered by `combined_score DESC` (before the final
`LIMIT match_count`). -/
def rankedRows (segs : List Segment) (match_count : ℕ)
    (semantic_weight keyword_weight match_threshold : ℚ) : List OutRow :=
  List.insertionSort scoreDescRel
    ((combinedCte segs match_count match_threshold).map
      (scoreRow segs semantic_weight keyword_weight))

/-- The `hybrid_search` SQL function from `migrate-hybrid-search.sql`. -/
def hybrid_search (segs : List Segment) (match_count : ℕ)
    (semantic_weight keyword_weight match_threshold : ℚ) : List OutRow :=
  (rankedRows segs match_count semantic_weight keyword_weight match_threshold).take
    match_count

/-! ## C1: fused score formula, descending order, truncation -/

lemma mem_hybrid_search_shape {segs : List Segment} {mc : ℕ} {sw kw mt : ℚ}
    {r : OutRow} (hr : r ∈ hybrid_search segs mc sw kw mt) :
    ∃ c ∈ combinedCte segs mc mt, r = scoreRow segs sw kw c := by
  have h1 : r ∈ rankedRows segs mc sw kw mt :=
    (List.take_sublist _ _).mem hr
  have h2 : r ∈ (combinedCte segs mc mt).map (scoreRow segs sw kw) := by
    simpa [rankedRows, List.mem_insertionSort] using h1
  rcases List.mem_map.mp h2 with ⟨c, hc, hcr⟩
  exact ⟨c, hc, hcr.symm⟩

/-- C1. Every row returned by `hybrid_search` carries
`combined_score = semantic_similarity * semantic_weight
  + keyword_rank * keyword_weight`; a passage with no lexical match has its
lexical score coalesced to `0`; the returned list is sorted in descending
order of fused score and has at most `match_count` entries. -/
theorem hybrid_search_fused_sorted_truncated (segs : List Segment) (mc : ℕ)
    (sw kw mt : ℚ) :
    (∀ r ∈ hybrid_search segs mc sw kw mt,
        r.combined_score = r.semantic_similarity * sw + r.keyword_rank * kw
        ∧ (r.id ∉ (segs.filter (fun s => s.lexMatch)).map (fun s => s.id) →
            r.keyword_rank = 0))
    ∧ List.Sorted (fun a b : OutRow => b.combined_score ≤ a.combined_score)
        (hybrid_search segs mc sw kw mt)
    ∧ (hybrid_search segs mc sw kw mt).length ≤ mc := by
  refine ⟨?_, ?_, ?_⟩
  · intro r hr
    rcases mem_hybrid_search_shape hr with ⟨c, hc, rfl⟩
    constructor
    · cases hfind : (keywordCte segs).find? (fun p => p.1 == c.id) with
      | none => simp [scoreRow, hfind]
      | some p => simp [scoreRow, hfind]
    · intro hid
      have hfind : (keywordCte segs).find? (fun p => p.1 == c.id) = none := by
        refine List.find?_eq_none.mpr ?_
        intro p hp
        rcases List.mem_map.mp hp with ⟨s, hs, hps⟩
        simp only [← hps, beq_iff_eq]
        intro hpc
        exact hid (List.mem_map.mpr ⟨s, hs, by simp [scoreRow] at hpc ⊢; exact hpc⟩)
      simp [scoreRow, hfind]
  · have hs : List.Sorted scoreDescRel (rankedRows segs mc sw kw mt) :=
      List.sorted_insertionSort scoreDescRel _
    exact hs.sublist (List.take_sublist _ _)
  · rw [hybrid_search, List.length_take]
    exact min_le_left mc (rankedRows segs mc sw kw mt).length

/-! ## C2: tie-breaking -/

/-- Equal-score rows are pairwise related by `scoreDescRel`, so the stable
insertion sort leaves them in their original relative order: for every score
value `c`, filtering the ranked rows down to score `c` gives exactly the
equal-score rows in candidate-assembly order. -/
lemma filter_insertionSort_score_eq (l : List OutRow) (c : ℚ) :
    (List.insertionSort scoreDescRel l).filter
        (fun r => r.combined_score == c)
      = l.filter (fun r => r.combined_score == c) := by
  set p : OutRow → Bool := fun r => r.combined_score == c with hp
  have hpair : (l.filter p).Pairwise scoreDescRel := by
    refine List.pairwise_of_forall_mem_list ?_
    intro a ha b hb
    have ha' : a.combined_score = c := by
      have := List.of_mem_filter ha
      simpa [hp] using this
    have hb' : b.combined_score = c := by
      have := List.of_mem_filter hb
      simpa [hp] using this
    simp [scoreDescRel, ha', hb']
  have hsub : (l.filter p).Sublist (List.insertionSort scoreDescRel l) :=
    List.sublist_insertionSort hpair (List.filter_sublist l)
  have hsub2 : (l.filter p).Sublist
      ((List.insertionSort scoreDescRel l).filter p) := by
    have := hsub.filter p
    simpa [List.filter_filter] using this
  have hlen : ((List.insertionSort scoreDescRel l).filter p).length
      = (l.filter p).length :=
    ((List.perm_insertionSort scoreDescRel l).filter p).length_eq
  exact (hsub2.eq_of_length hlen.symm).symm

/-- C2 (amended). The ranking sort is stable: candidates with equal fused
score keep the relative order in which the candidate assembly
(semantic candidates in similarity order, then keyword-only candidates)
produced them; they are not re-ordered by passage id. -/
theorem rankedRows_ties_keep_assembly_order (segs : List Segment) (mc : ℕ)
    (sw kw mt : ℚ) (c : ℚ) :
    (rankedRows segs mc sw kw mt).filter (fun r => r.combined_score == c)
      = ((combinedCte segs mc mt).map (scoreRow segs sw kw)).filter
          (fun r => r.combined_score == c) :=
  filter_insertionSort_score_eq _ c

/-- C2 (counterexample). Two candidates with equal fused score are *not*
ordered by passage id: with two equal-similarity segments and no lexical
matches, the output keeps the table order, whichever it is — id `1` before
id `0` for one table order, id `0` before id `1` for the reversed order —
while both rows carry the same fused score. -/
theorem hybrid_search_tie_not_ordered_by_id :
    ((hybrid_search [⟨1, true, 1, false, 0⟩, ⟨0, true, 1, false, 0⟩]
        2 7 3 0).map (fun r => r.id) = [1, 0]
      ∧ ∀ r ∈ hybrid_search [⟨1, true, 1, false, 0⟩, ⟨0, true, 1, false, 0⟩]
          2 7 3 0, r.combined_score = 7)
    ∧ ((hybrid_search [⟨0, true, 1, false, 0⟩, ⟨1, true, 1, false, 0⟩]
        2 7 3 0).map (fun r => r.id) = [0, 1]
      ∧ ∀ r ∈ hybrid_search [⟨0, true, 1, false, 0⟩, ⟨1, true, 1, false, 0⟩]
          2 7 3 0, r.combined_score = 7) := by
  decide

/-! ## C3: deduplication across the two retrieval paths -/

lemma ids_nodup_semanticCte {segs : List Segment}
    (h : (segs.map (fun s => s.id)).Nodup) (mc : ℕ) (mt : ℚ) :
    ((semanticCte segs mc mt).map (fun s => s.id)).Nodup := by
  set p : Segment → Bool :=
    fun s => s.hasEmbedding && decide (mt < s.sim) with hp
  have h1 : ((segs.filter p).map (fun s => s.id)).Nodup :=
    ((List.filter_sublist segs).map (fun s => s.id)).nodup h
  have h2 : ((List.insertionSort simDescRel (segs.filter p)).map
      (fun s => s.id)).Nodup :=
    (((List.perm_insertionSort simDescRel (segs.filter p)).map
      (fun s => s.id)).symm).nodup h1
  have h3 : (semanticCte segs mc mt).map (fun s => s.id)
      = ((List.insertionSort simDescRel (segs.filter p)).map
          (fun s => s.id)).take (mc * 5) := by
    simp [semanticCte, List.map_take, hp]
  rw [h3]
  exact (List.take_sublist _ _).nodup h2

lemma filter_id_eq_singleton :
    ∀ {l : List Segment}, ((l.map (fun s => s.id)).Nodup) →
      ∀ {s : Segment}, s ∈ l → l.filter (fun c => c.id == s.id) = [s] := by
  intro l
  induction l with
  | nil => intro _ s hs; cases hs
  | cons a t ih =>
    intro h s hs
    rw [List.map_cons, List.nodup_cons] at h
    have ha : a.id ∉ t.map (fun s => s.id) := h.1
    have ht : (t.map (fun s => s.id)).Nodup := h.2
    cases List.mem_cons.mp hs with
    | inl hsa =>
      subst hsa
      rw [List.filter_cons_of_pos (by simp)]
      have hnone : t.filter (fun c => c.id == s.id) = [] := by
        refine List.filter_eq_nil_iff.mpr ?_
        intro c hc
        simp only [beq_iff_eq]
        intro hcs
        exact ha (List.mem_map.mpr ⟨c, hc, hcs⟩)
      rw [hnone]
    | inr hst =>
      have hne : a.id ≠ s.id := by
        intro he
        apply ha
        rw [he]
        exact List.mem_map.mpr ⟨s, hst, rfl⟩
      rw [List.filter_cons_of_neg (by simp [hne])]
      exact ih ht hst

lemma find?_filter_map_id (d : ℚ) :
    ∀ {l : List Segment}, ((l.map (fun s => s.id)).Nodup) →
      ∀ {s : Segment}, s ∈ l → s.lexMatch = true →
        ((l.filter (fun s => s.lexMatch)).map
            (fun s => (s.id, s.lexRank / d))).find? (fun p => p.1 == s.id)
          = some (s.id, s.lexRank / d) := by
  intro l
  induction l with
  | nil => intro _ s hs; cases hs
  | cons a t ih =>
    intro h s hs hlex
    rw [List.map_cons, List.nodup_cons] at h
    have ha : a.id ∉ t.map (fun s => s.id) := h.1
    have ht : (t.map (fun s => s.id)).Nodup := h.2
    cases List.mem_cons.mp hs with
    | inl hsa =>
      subst hsa
      rw [List.filter_cons_of_pos (by simp [hlex]), List.map_cons,
        List.find?_cons_of_pos _ (by simp)]
    | inr hst =>
      have hne : a.id ≠ s.id := by
        intro he
        apply ha
        rw [he]
        exact List.mem_map.mpr ⟨s, hst, rfl⟩
      cases hm : a.lexMatch with
      | true =>
        rw [List.filter_cons_of_pos (by simp [hm]), List.map_cons,
          List.find?_cons_of_neg _ (by simp [hne])]
        exact ih ht hst hlex
      | false =>
        rw [List.filter_cons_of_neg (by simp [hm])]
        exact ih ht hst hlex

lemma mem_segs_of_mem_semanticCte {segs : List Segment} {mc : ℕ} {mt : ℚ}
    {s : Segment} (h : s ∈ semanticCte segs mc mt) : s ∈ segs := by
  have h1 : s ∈ List.insertionSort simDescRel
      (segs.filter (fun s => s.hasEmbedding && decide (mt < s.sim))) :=
    (List.take_sublist _ _).mem h
  have h2 := (List.mem_insertionSort simDescRel).mp h1
  exact (List.mem_filter.mp h2).1

/-- C3 (amended). A passage found by both retrieval paths (it is in the
`semantic` CTE and matches the lexical query) appears exactly once among the
ranked rows, hence at most once in the truncated output; its single row
carries both its semantic similarity and its normalized lexical score. -/
theorem hybrid_search_dedup_both_scores (segs : List Segment) (mc : ℕ)
    (sw kw mt : ℚ) (hnd : (segs.map (fun s => s.id)).Nodup) (s : Segment)
    (hsem : s ∈ semanticCte segs mc mt) (hlex : s.lexMatch = true) :
    ((rankedRows segs mc sw kw mt).filter (fun r => r.id == s.id)).length = 1
    ∧ ((hybrid_search segs mc sw kw mt).filter
        (fun r => r.id == s.id)).length ≤ 1
    ∧ ∀ r ∈ rankedRows segs mc sw kw mt, r.id = s.id →
        r.semantic_similarity = s.sim
        ∧ r.keyword_rank = s.lexRank / maxKeywordRank segs := by
  have hseg : s ∈ segs := mem_segs_of_mem_semanticCte hsem
  have hcomb : (combinedCte segs mc mt).filter (fun c => c.id == s.id) = [s] := by
    have hsemf : (semanticCte segs mc mt).filter (fun c => c.id == s.id) = [s] :=
      filter_id_eq_singleton (ids_nodup_semanticCte hnd mc mt) hsem
    have hkof : (keywordOnlyCte segs mc mt).filter (fun c => c.id == s.id) = ([] : List Segment) := by
      rw [List.filter_eq_nil_iff]
      intro c hc
      have hc1 : c ∈ segs.filter (fun x =>
          x.hasEmbedding && x.lexMatch &&
            !((semanticCte segs mc mt).map (fun t => t.id)).contains x.id) :=
        (List.take_sublist _ _).mem hc
      have hc2 := (List.mem_filter.mp hc1).2
      simp only [Bool.and_eq_true, Bool.not_eq_true'] at hc2
      simp only [beq_iff_eq]
      intro hcs
      have hmemid : c.id ∈ (semanticCte segs mc mt).map (fun t => t.id) := by
        rw [hcs]
        exact List.mem_map.mpr ⟨s, hsem, rfl⟩
      have hcontra := hc2.2
      rw [List.contains_eq_any_beq] at hcontra
      have hany : ((semanticCte segs mc mt).map (fun t => t.id)).any
          (fun x => c.id == x) = true :=
        List.any_eq_true.mpr ⟨c.id, hmemid, by simp⟩
      rw [hany] at hcontra
      exact Bool.noConfusion hcontra
    simp [combinedCte, List.filter_append, hsemf, hkof]
  have hrows : ((combinedCte segs mc mt).map
      (scoreRow segs sw kw)).filter (fun r => r.id == s.id)
        = [scoreRow segs sw kw s] := by
    rw [List.filter_map]
    have : ((fun r : OutRow => r.id == s.id) ∘ scoreRow segs sw kw)
        = fun c : Segment => c.id == s.id := by
      funext c
      simp [scoreRow, Function.comp]
    rw [this, hcomb, List.map_cons, List.map_nil]
  have hperm : List.Perm
      ((rankedRows segs mc sw kw mt).filter (fun r => r.id == s.id))
      [scoreRow segs sw kw s] := by
    have := (List.perm_insertionSort scoreDescRel
      ((combinedCte segs mc mt).map (scoreRow segs sw kw))).filter
        (fun r => r.id == s.id)
    rw [hrows] at this
    exact this
  have hlen1 : ((rankedRows segs mc sw kw mt).filter
      (fun r => r.id == s.id)).length = 1 := by simpa using hperm.length_eq
  refine ⟨hlen1, ?_, ?_⟩
  · have hsub : List.Sublist
        ((hybrid_search segs mc sw kw mt).filter (fun r => r.id == s.id))
        ((rankedRows segs mc sw kw mt).filter (fun r => r.id == s.id)) :=
      (List.take_sublist _ _).filter _
    have := hsub.length_le
    omega
  · intro r hr hrid
    have hmem : r ∈ (rankedRows segs mc sw kw mt).filter
        (fun r => r.id == s.id) :=
      List.mem_filter.mpr ⟨hr, by simp [hrid]⟩
    have : r = scoreRow segs sw kw s := by
      have := hperm.mem_iff.mp hmem
      simpa using this
    subst this
    constructor
    · rfl
    · show (scoreRow segs sw kw s).keyword_rank = s.lexRank / maxKeywordRank segs
      have hfind : (keywordCte segs).find? (fun p => p.1 == s.id)
          = some (s.id, s.lexRank / maxKeywordRank segs) :=
        find?_filter_map_id (maxKeywordRank segs) hnd hseg hlex
      simp only [scoreRow]
      rw [hfind]

/-- Witness for `hybrid_search_dedup_both_scores` at a one-row table whose
only segment is found by both paths. -/
theorem hybrid_search_dedup_both_scores_witness :
    ((rankedRows [⟨0, true, 1, true, 1⟩] 1 1 1 0).filter
      (fun r => r.id == 0)).length = 1 :=
  (hybrid_search_dedup_both_scores [⟨0, true, 1, true, 1⟩] 1 1 1 0
    (by decide) ⟨0, true, 1, true, 1⟩ (by decide) rfl).1

/-- C3 (counterexample). The clause "appears exactly once in the fused output" fails
as stated: with `match_count = 1`, a passage retrieved by *both* paths (id 0,
in the `semantic` CTE and lexically matching) is truncated away by the final
`LIMIT`, appearing zero times in the returned list. -/
theorem hybrid_search_dual_candidate_truncated_away :
    ((hybrid_search [⟨0, true, 1, true, 1⟩, ⟨1, true, 3, false, 0⟩]
        1 1 1 0).filter (fun r => r.id == 0)).length = 0
    ∧ (⟨0, true, 1, true, 1⟩ : Segment) ∈
        semanticCte [⟨0, true, 1, true, 1⟩, ⟨1, true, 3, false, 0⟩] 1 0
    ∧ (⟨0, true, 1, true, 1⟩ : Segment).lexMatch = true := by
  decide

/-! ## C5: lexical score normalization -/

lemma maxKeywordRank_cases (segs : List Segment) :
    maxKeywordRank segs = 1
    ∨ ∃ m, ((segs.filter (fun s => s.lexMatch)).map (fun s => s.lexRank)).max?
          = some m
        ∧ m ≠ 0 ∧ maxKeywordRank segs = m := by
  unfold maxKeywordRank
  cases hmax : ((segs.filter (fun s => s.lexMatch)).map
      (fun s => s.lexRank)).max? with
  | none => exact Or.inl rfl
  | some m =>
    by_cases hm : m = 0
    · exact Or.inl (by simp [hm])
    · exact Or.inr ⟨m, rfl, hm, by simp [hm]⟩

lemma max?_spec_rat {xs : List ℚ} {m : ℚ} (h : xs.max? = some m) :
    m ∈ xs ∧ ∀ b ∈ xs, b ≤ m := by
  haveI : Std.Antisymm (α := ℚ) (fun a b => a ≤ b) :=
    ⟨fun h1 h2 => le_antisymm h1 h2⟩
  exact (List.max?_eq_some_iff (fun a => le_refl a)
    (fun a b => max_choice a b) (fun a b c => max_le_iff)).mp h

lemma maxKeywordRank_pos {segs : List Segment}
    (hnn : ∀ s ∈ segs, 0 ≤ s.lexRank) : 0 < maxKeywordRank segs := by
  rcases maxKeywordRank_cases segs with h1 | ⟨m, hmax, hm0, heq⟩
  · rw [h1]; norm_num
  · rw [heq]
    rcases (max?_spec_rat hmax).1 with hmem
    rcases List.mem_map.mp hmem with ⟨s, hs, hsm⟩
    have : 0 ≤ m := hsm ▸ hnn s (List.mem_filter.mp hs).1
    exact lt_of_le_of_ne this (Ne.symm hm0)

lemma le_maxKeywordRank {segs : List Segment} {s : Segment}
    (hs : s ∈ segs.filter (fun s => s.lexMatch)) :
    s.lexRank ≤ maxKeywordRank segs := by
  have hmem : s.lexRank ∈ (segs.filter (fun s => s.lexMatch)).map
      (fun s => s.lexRank) := List.mem_map.mpr ⟨s, hs, rfl⟩
  rcases maxKeywordRank_cases segs with h1 | ⟨m, hmax, hm0, heq⟩
  · rw [h1]
    rcases hcase : ((segs.filter (fun s => s.lexMatch)).map
        (fun s => s.lexRank)).max? with _ | m
    · rw [List.max?_eq_none_iff] at hcase
      rw [hcase] at hmem
      cases hmem
    · have hle : s.lexRank ≤ m := (max?_spec_rat hcase).2 _ hmem
      by_cases hm : m = 0
      · calc s.lexRank ≤ m := hle
          _ ≤ 1 := by rw [hm]; norm_num
      · have : maxKeywordRank segs = m := by
          unfold maxKeywordRank
          rw [hcase]
          simp [hm]
        rw [this] at h1
        rw [h1] at hle
        exact hle.trans (le_refl 1)
  · rw [heq]
    exact (max?_spec_rat hmax).2 _ hmem

/-- C5. The normalization divisor is the maximum raw `ts_rank_cd` over the
lexically matching set, replaced by `1` when that maximum is `NULL` (no match)
or `0`; given that raw lexical ranks are non-negative (as `ts_rank_cd` is),
the divisor is strictly positive — never zero — and every normalized lexical
score handed to fusion lies in `[0, 1]`. -/
theorem keyword_normalization_safe (segs : List Segment)
    (hnn : ∀ s ∈ segs, 0 ≤ s.lexRank) :
    0 < maxKeywordRank segs
    ∧ (segs.filter (fun s => s.lexMatch) = [] → maxKeywordRank segs = 1)
    ∧ ∀ p ∈ keywordCte segs, 0 ≤ p.2 ∧ p.2 ≤ 1 := by
  refine ⟨maxKeywordRank_pos hnn, ?_, ?_⟩
  · intro hempty
    unfold maxKeywordRank
    rw [hempty]
    rfl
  · intro p hp
    rcases List.mem_map.mp hp with ⟨s, hs, hps⟩
    have hpos : 0 < maxKeywordRank segs := maxKeywordRank_pos hnn
    have hsnn : 0 ≤ s.lexRank := hnn s (List.mem_filter.mp hs).1
    constructor
    · rw [← hps]
      exact div_nonneg hsnn hpos.le
    · rw [← hps]
      simp only
      rw [div_le_one hpos]
      exact le_maxKeywordRank hs

/-- Witness for `keyword_normalization_safe` on a two-row table with one
lexical match. -/
theorem keyword_normalization_safe_witness :
    0 < maxKeywordRank [⟨0, true, 1, true, 3⟩, ⟨1, true, 1, false, 0⟩] :=
  (keyword_normalization_safe [⟨0, true, 1, true, 3⟩, ⟨1, true, 1, false, 0⟩]
    (by decide)).1

/-! ## C4: `text_to_or_tsquery` -/

/-- A PostgreSQL `tsquery` as assembled by `text_to_or_tsquery`: the empty
query `to_tsquery('')`, a per-word query produced by
`to_tsquery('english', word || ':*')` (kept abstract as a value of type `α`),
or an OR (`||`) of two queries. -/
inductive Tsquery (α : Type) where
  | empty : Tsquery α
  | term : α → Tsquery α
  | orq : Tsquery α → Tsquery α → Tsquery α
deriving DecidableEq

/-- Matching (`@@`) against a tsquery, given a matcher `m` for the abstract
per-word terms: OR distributes as disjunction and the empty query matches
nothing. -/
def tsqMatch {α : Type} (m : α → Bool) : Tsquery α → Bool
  | Tsquery.empty => false
  | Tsquery.term t => m t
  | Tsquery.orq a b => tsqMatch m a || tsqMatch m b

/-- The per-word terms of a tsquery, left to right. -/
def termList {α : Type} : Tsquery α → List α
  | Tsquery.empty => []
  | Tsquery.term t => [t]
  | Tsquery.orq a b => termList a ++ termList b

/-- The substitution `regexp_replace(word, '[^a-z0-9]', '', 'g')`: drop every character that is
not a lowercase letter or a digit. -/
def stripPunct (w : String) : String :=
  String.mk (w.toList.filter (fun c =>
    (('a' ≤ c) && (c ≤ 'z')) || (('0' ≤ c) && (c ≤ '9'))))

/-- The split `regexp_split_to_array(lower(query_text), '\s+')`: split the lowercased
query at whitespace.  (The regex form produces no interior empty tokens, but
empty tokens are discarded by the length filter either way.) -/
def queryWords (q : String) : List String :=
  q.toLower.split (fun c => c.isWhitespace)

/-- One `FOREACH word` iteration of `text_to_or_tsquery`: skip words shorter
than 3, strip punctuation, re-check the length, convert with
`to_tsquery(word || ':*')` — abstracted as `toTsq`, whose failure
(`EXCEPTION WHEN OTHERS`) skips the word — and OR the result onto the
accumulator (`NULL` start). -/
def tsqStep {α : Type} (toTsq : String → Option α)
    (acc : Option (Tsquery α)) (word : String) : Option (Tsquery α) :=
  if 3 ≤ word.length then
    let word2 := stripPunct word
    if 3 ≤ word2.length then
      match toTsq (word2 ++ ":*") with
      | some t =>
        match acc with
        | none => some (Tsquery.term t)
        | some ts => some (Tsquery.orq ts (Tsquery.term t))
      | none => acc
    else acc
  else acc

/-- The `text_to_or_tsquery` SQL helper from `migrate-hybrid-search.sql`. -/
def text_to_or_tsquery {α : Type} (toTsq : String → Option α) (q : String) :
    Tsquery α :=
  match (queryWords q).foldl (tsqStep toTsq) none with
  | none => Tsquery.empty
  | some ts => ts

/-- Terms of an optional (possibly `NULL`) accumulator. -/
def termsOpt {α : Type} : Option (Tsquery α) → List α
  | none => []
  | some t => termList t

lemma stripPunct_length_le (w : String) : (stripPunct w).length ≤ w.length := by
  simp only [stripPunct, String.length]
  exact List.length_filter_le _ _

lemma tsqMatch_eq_any_termList {α : Type} (m : α → Bool) :
    ∀ t : Tsquery α, tsqMatch m t = (termList t).any m := by
  intro t
  induction t with
  | empty => simp [tsqMatch, termList]
  | term a => simp [tsqMatch, termList]
  | orq a b iha ihb => simp [tsqMatch, termList, iha, ihb, List.any_append]

lemma termsOpt_tsqStep {α : Type} (toTsq : String → Option α)
    (acc : Option (Tsquery α)) (w : String) :
    termsOpt (tsqStep toTsq acc w)
      = termsOpt acc
        ++ (if 3 ≤ (stripPunct w).length
            then (toTsq (stripPunct w ++ ":*")).toList
            else []) := by
  by_cases h3 : 3 ≤ w.length
  · by_cases h3' : 3 ≤ (stripPunct w).length
    · simp only [tsqStep, h3, h3', if_true]
      cases ht : toTsq (stripPunct w ++ ":*") with
      | none => simp [ht]
      | some t =>
        cases acc with
        | none => simp [ht, termsOpt, termList]
        | some ts => simp [ht, termsOpt, termList]
    · simp [tsqStep, h3, h3']
  · have h3' : ¬ 3 ≤ (stripPunct w).length := fun hc =>
      h3 (le_trans hc (stripPunct_length_le w))
    simp [tsqStep, h3, h3']

lemma termsOpt_foldl {α : Type} (toTsq : String → Option α) :
    ∀ (ws : List String) (acc : Option (Tsquery α)),
      termsOpt (ws.foldl (tsqStep toTsq) acc)
        = termsOpt acc
          ++ ((ws.map stripPunct).filter
              (fun w => decide (3 ≤ w.length))).filterMap
            (fun w => toTsq (w ++ ":*")) := by
  intro ws
  induction ws with
  | nil => intro acc; simp
  | cons w ws ih =>
    intro acc
    rw [List.foldl_cons, ih (tsqStep toTsq acc w), termsOpt_tsqStep,
      List.append_assoc, List.map_cons]
    by_cases h3' : 3 ≤ (stripPunct w).length
    · rw [List.filter_cons_of_pos (by simpa using h3'), List.filterMap_cons,
        if_pos h3']
      cases ht : toTsq (stripPunct w ++ ":*") with
      | none => simp [ht]
      | some t => simp [ht]
    · rw [List.filter_cons_of_neg (by simpa using h3'), if_neg h3']
      simp

/-- C4. The lexical query keeps exactly the case-folded,
punctuation-stripped tokens of length at least 3 (a token whose conversion
`toTsq` fails is skipped, not fatal), and it has OR semantics: a passage
matches the built query exactly when it matches at least one single kept
token. -/
theorem text_to_or_tsquery_spec {α : Type} (toTsq : String → Option α)
    (q : String) (m : α → Bool) :
    termList (text_to_or_tsquery toTsq q)
      = (((queryWords q).map stripPunct).filter
          (fun w => decide (3 ≤ w.length))).filterMap
        (fun w => toTsq (w ++ ":*"))
    ∧ tsqMatch m (text_to_or_tsquery toTsq q)
      = ((((queryWords q).map stripPunct).filter
          (fun w => decide (3 ≤ w.length))).filterMap
        (fun w => toTsq (w ++ ":*"))).any m := by
  have hterm : termList (text_to_or_tsquery toTsq q)
      = termsOpt ((queryWords q).foldl (tsqStep toTsq) none) := by
    unfold text_to_or_tsquery
    cases (queryWords q).foldl (tsqStep toTsq) none with
    | none => simp [termsOpt, termList]
    | some ts => simp [termsOpt]
  have h1 : termList (text_to_or_tsquery toTsq q)
      = (((queryWords q).map stripPunct).filter
          (fun w => decide (3 ≤ w.length))).filterMap
        (fun w => toTsq (w ++ ":*")) := by
    rw [hterm, termsOpt_foldl]
    simp [termsOpt]
  exact ⟨h1, by rw [tsqMatch_eq_any_termList, h1]⟩

/-! ## C6: `searchSegments` fallback (src/lib/search.ts) -/

/-- A Supabase RPC error (`error.message`). -/
structure SbError where
  message : String
deriving DecidableEq

/-- Whether `needle` occurs as a contiguous run somewhere in the character list. -/
def subOccurs (needle : List Char) : List Char → Bool
  | [] => needle.isEmpty
  | c :: cs => needle.isPrefixOf (c :: cs) || subOccurs needle cs

/-- JavaScript `haystack.includes(needle)`: `needle` occurs as a substring. -/
def strIncludes (haystack needle : String) : Bool :=
  subOccurs needle.toList haystack.toList

/-- Function `searchSegments` from `src/lib/search.ts`, as a function of the outcomes
of its two RPC calls: `hybrid` is the `supabase.rpc("hybrid_search", ...)`
outcome and `fallback` the `supabase.rpc("match_segments", ...)` outcome
(each either an error or `data`, which may be `null` — `data || []`).
`Except.error` models a thrown `Error`. -/
def searchSegments {α : Type} (hybrid fallback : Except SbError (Option (List α))) :
    Except String (List α) :=
  match hybrid with
  | Except.ok d => Except.ok (d.getD [])
  | Except.error e =>
    if strIncludes e.message "hybrid_search" then
      match fallback with
      | Except.ok d2 => Except.ok (d2.getD [])
      | Except.error fe => Except.error ("Search failed: " ++ fe.message)
    else Except.error ("Search failed: " ++ e.message)

/-- C6 (amended). When the hybrid RPC fails because `hybrid_search` is
unavailable (its error message names `hybrid_search`) and the legacy
`match_segments` call succeeds, `searchSegments` returns the semantic-only
result list without raising. -/
theorem searchSegments_fallback {α : Type} (e : SbError)
    (d : Option (List α))
    (hmsg : strIncludes e.message "hybrid_search" = true) :
    searchSegments (Except.error e) (Except.ok d) = Except.ok (d.getD []) := by
  simp [searchSegments, hmsg]

/-- Witness for `searchSegments_fallback` with the Postgres missing-function
message. -/
theorem searchSegments_fallback_witness :
    searchSegments (α := ℕ)
        (Except.error ⟨"Could not find the function public.hybrid_search"⟩)
        (Except.ok (some [7]))
      = Except.ok [7] :=
  searchSegments_fallback ⟨"Could not find the function public.hybrid_search"⟩
    (some [7]) (by decide)

/-- C6 (counterexample). Retrieval *can* hard-fail on a lexical-path
error: a hybrid RPC error whose message does not contain the substring
`hybrid_search` (here, a statement timeout raised while the lexical scan
runs) is re-thrown even though the semantic-only fallback would have
succeeded. -/
theorem searchSegments_raises_on_other_error :
    searchSegments (α := ℕ)
        (Except.error ⟨"canceling statement due to statement timeout"⟩)
        (Except.ok (some [7]))
      = Except.error
          "Search failed: canceling statement due to statement timeout" := by
  have h : strIncludes "canceling statement due to statement timeout"
      "hybrid_search" = false := by decide
  simp [searchSegments, h]

/-! ## C7: `calculateNDCG` (src/scripts/evaluate-search.ts) -/

/-- The comparator `.sort((a, b) => b - a)`: descending order on relevance scores. -/
def realDescRel (a b : ℝ) : Prop := b ≤ a

noncomputable instance realDescRelDecidable : DecidableRel realDescRel :=
  fun a b => Classical.dec (b ≤ a)

instance realDescRelTotal : IsTotal ℝ realDescRel :=
  ⟨fun a b => le_total b a⟩

instance realDescRelTrans : IsTrans ℝ realDescRel :=
  ⟨fun _ _ _ h1 h2 => le_trans h2 h1⟩

/-- The DCG accumulation loop `dcg += score[i] / Math.log2(i + 2)` starting at
index `n`. -/
noncomputable def dcgAux : List ℝ → ℕ → ℝ
  | [], _ => 0
  | s :: rest, n => s / Real.logb 2 ((n : ℝ) + 2) + dcgAux rest (n + 1)

open Classical in
/-- Function `calculateNDCG` from `src/scripts/evaluate-search.ts`, over the list of
`estimateRelevance(...).score` values of the ranked results: slice the top
`k`, accumulate DCG, sort the same slice descending for the ideal DCG, and
return `0` when `idcg === 0`, else `dcg / idcg`. -/
noncomputable def calculateNDCG (rel : List ℝ) (k : ℕ) : ℝ :=
  let topK := rel.take k
  let dcg := dcgAux topK 0
  let idealScores := List.insertionSort realDescRel topK
  let idcg := dcgAux idealScores 0
  if idcg = 0 then 0 else dcg / idcg

lemma dcgAux_eq_sum :
    ∀ (l : List ℝ) (n : ℕ),
      dcgAux l n
        = ∑ i ∈ Finset.range l.length,
            l.getD i 0 / Real.logb 2 ((i : ℝ) + (n : ℝ) + 2) := by
  intro l
  induction l with
  | nil => intro n; simp [dcgAux]
  | cons s rest ih =>
    intro n
    rw [dcgAux, ih (n + 1), List.length_cons, Finset.sum_range_succ']
    rw [add_comm]
    congr 1
    · refine Finset.sum_congr rfl ?_
      intro i _
      rw [List.getD_cons_succ]
      congr 2
      push_cast
      ring
    · rw [List.getD_cons_zero]
      congr 2
      push_cast
      ring

lemma dcgAux_zero_offset (l : List ℝ) :
    dcgAux l 0
      = ∑ i ∈ Finset.range l.length,
          l.getD i 0 / Real.logb 2 ((i : ℝ) + 2) := by
  rw [dcgAux_eq_sum]
  refine Finset.sum_congr rfl ?_
  intro i _
  norm_num

lemma dcgAux_of_all_zero {l : List ℝ} (h : ∀ x ∈ l, x = 0) :
    ∀ n, dcgAux l n = 0 := by
  induction l with
  | nil => intro n; rfl
  | cons s rest ih =>
    intro n
    have hs : s = 0 := h s (List.mem_cons_self s rest)
    have hr : ∀ x ∈ rest, x = 0 := fun x hx => h x (List.mem_cons_of_mem s hx)
    rw [dcgAux, hs, zero_div, zero_add]
    exact ih hr (n + 1)

/-- C7. The function `calculateNDCG` computes
`DCG = Σ relevance(i) / log2(i + 2)` over the top-`k` slice, divides by the
ideal DCG — the same formula applied to those relevance scores sorted in
descending order (a permutation of the slice, sorted) — and returns exactly
`0` whenever the ideal DCG is `0`, in particular when every relevance score
is `0`. -/
theorem calculateNDCG_spec (rel : List ℝ) (k : ℕ) :
    ((∑ i ∈ Finset.range (List.insertionSort realDescRel (rel.take k)).length,
          (List.insertionSort realDescRel (rel.take k)).getD i 0
            / Real.logb 2 ((i : ℝ) + 2)) = 0 →
        calculateNDCG rel k = 0)
    ∧ ((∑ i ∈ Finset.range (List.insertionSort realDescRel (rel.take k)).length,
          (List.insertionSort realDescRel (rel.take k)).getD i 0
            / Real.logb 2 ((i : ℝ) + 2)) ≠ 0 →
        calculateNDCG rel k
          = (∑ i ∈ Finset.range (rel.take k).length,
              (rel.take k).getD i 0 / Real.logb 2 ((i : ℝ) + 2))
            / (∑ i ∈ Finset.range
                  (List.insertionSort realDescRel (rel.take k)).length,
                (List.insertionSort realDescRel (rel.take k)).getD i 0
                  / Real.logb 2 ((i : ℝ) + 2)))
    ∧ List.Perm (List.insertionSort realDescRel (rel.take k)) (rel.take k)
    ∧ List.Sorted (fun a b : ℝ => b ≤ a)
        (List.insertionSort realDescRel (rel.take k))
    ∧ ((∀ x ∈ rel, x = 0) → calculateNDCG rel k = 0) := by
  classical
  have hcalc : calculateNDCG rel k
      = if dcgAux (List.insertionSort realDescRel (rel.take k)) 0 = 0 then 0
        else dcgAux (rel.take k) 0
          / dcgAux (List.insertionSort realDescRel (rel.take k)) 0 := rfl
  refine ⟨?_, ?_, List.perm_insertionSort realDescRel (rel.take k),
    List.sorted_insertionSort realDescRel (rel.take k), ?_⟩
  · intro h0
    rw [hcalc, ← dcgAux_zero_offset] at *
    rw [if_pos h0]
  · intro h0
    rw [← dcgAux_zero_offset] at h0
    rw [hcalc, if_neg h0, dcgAux_zero_offset, dcgAux_zero_offset]
  · intro hz
    have hz2 : ∀ x ∈ List.insertionSort realDescRel (rel.take k), x = 0 := by
      intro x hx
      have hx2 : x ∈ rel.take k := (List.mem_insertionSort realDescRel).mp hx
      exact hz x ((List.take_sublist k rel).mem hx2)
    rw [hcalc, if_pos (dcgAux_of_all_zero hz2 0)]

/-- Witness for `calculateNDCG_spec`: the all-zero relevance floor at a
concrete slice. -/
theorem calculateNDCG_spec_witness : calculateNDCG [0, 0] 3 = 0 :=
  (calculateNDCG_spec [0, 0] 3).2.2.2.2 (by simp)

/-! ## C8: `checkThresholds` / `evaluateWithRagas` (src/lib/evaluation/ragas.ts) -/

/-- Structure `RagasInput` from `src/lib/evaluation/types.ts`. -/
structure RagasInput where
  question : String
  answer : String
  contexts : List String
deriving DecidableEq

/-- Structure `RagasScores` from `src/lib/evaluation/types.ts`: three `number | null`
scores plus an `error : string | null`. -/
structure RagasScores where
  faithfulness : Option ℚ
  answer_relevancy : Option ℚ
  context_precision : Option ℚ
  error : Option String
deriving DecidableEq

/-- Structure `RagasEvaluationResult` from `src/lib/evaluation/types.ts`. -/
structure RagasEvaluationResult where
  input : RagasInput
  scores : RagasScores
  durationMs : ℕ
  passed : Bool
deriving DecidableEq

structure RagasThresholds where
  faithfulness : ℚ
  answer_relevancy : ℚ
  context_precision : ℚ

/-- Constant `RAGAS_THRESHOLDS` (the target thresholds) from
`src/lib/evaluation/types.ts`. -/
def RAGAS_THRESHOLDS : RagasThresholds :=
  { faithfulness := 0.85, answer_relevancy := 0.80, context_precision := 0.75 }

/-- JavaScript truthiness of a `string | null` field (`if (scores.error)`):
`null` and the empty string are falsy. -/
def strTruthy : Option String → Bool
  | none => false
  | some s => !s.isEmpty

/-- Function `checkThresholds` from `src/lib/evaluation/ragas.ts`: false on a truthy
`error`, false on any `null` score, else `>=` against each target. -/
def checkThresholds (scores : RagasScores) : Bool :=
  if strTruthy scores.error then false
  else
    match scores.faithfulness, scores.answer_relevancy,
        scores.context_precision with
    | some f, some a, some c =>
        decide (RAGAS_THRESHOLDS.faithfulness ≤ f)
          && decide (RAGAS_THRESHOLDS.answer_relevancy ≤ a)
          && decide (RAGAS_THRESHOLDS.context_precision ≤ c)
    | _, _, _ => false

/-- Function `evaluateWithRagas` from `src/lib/evaluation/ragas.ts`: the `try`/`catch`
around `runPythonScript`, as a function of that call's outcome
(`Except.error` models a rejected promise — timeout, spawn failure, non-zero
exit, parse failure or a judge-reported error — with its message) and the
measured duration. -/
def evaluateWithRagas (input : RagasInput) (durationMs : ℕ)
    (outcome : Except String RagasScores) : RagasEvaluationResult :=
  match outcome with
  | Except.ok scores =>
      { input := input, scores := scores, durationMs := durationMs,
        passed := checkThresholds scores }
  | Except.error msg =>
      { input := input
        scores := { faithfulness := none, answer_relevancy := none,
                    context_precision := none, error := some msg }
        durationMs := durationMs
        passed := false }

/-- C8. Provided the judge never reports the empty string as an error
message (the wrapper and the judge script use `null` for "no error"),
`checkThresholds` is `true` exactly when `error` is unset and all three
scores are non-null and `>=` their targets (`0.85` / `0.80` / `0.75`, equality
passing); `evaluateWithRagas` passes that verdict through on success, and on
timeout or transport failure returns — rather than throwing — a record with
all three scores `null`, `error` set to the failure message, and
`passed = false`. -/
theorem evaluateWithRagas_spec (scores : RagasScores)
    (hns : scores.error ≠ some "") (input : RagasInput) (d : ℕ)
    (msg : String) :
    (checkThresholds scores = true ↔
      (scores.error = none
        ∧ ∃ f a c, scores.faithfulness = some f
            ∧ scores.answer_relevancy = some a
            ∧ scores.context_precision = some c
            ∧ RAGAS_THRESHOLDS.faithfulness ≤ f
            ∧ RAGAS_THRESHOLDS.answer_relevancy ≤ a
            ∧ RAGAS_THRESHOLDS.context_precision ≤ c))
    ∧ (evaluateWithRagas input d (Except.ok scores)).passed
        = checkThresholds scores
    ∧ (evaluateWithRagas input d (Except.error msg)).scores
        = { faithfulness := none, answer_relevancy := none,
            context_precision := none, error := some msg }
    ∧ (evaluateWithRagas input d (Except.error msg)).passed = false := by
  refine ⟨?_, rfl, rfl, rfl⟩
  rcases scores with ⟨fo, ao, co, eo⟩
  cases eo with
  | some s =>
    have hs : s ≠ "" := by
      intro h
      exact hns (by rw [h])
    have htr : strTruthy (some s) = true := by
      have hemp : s.isEmpty = false := by
        rw [Bool.eq_false_iff]
        intro hemp
        exact hs ((String.isEmpty_iff s).mp hemp)
      simp [strTruthy, hemp]
    simp [checkThresholds, htr]
  | none =>
    cases fo with
    | none => simp [checkThresholds, strTruthy]
    | some f =>
      cases ao with
      | none => simp [checkThresholds, strTruthy]
      | some a =>
        cases co with
        | none => simp [checkThresholds, strTruthy]
        | some c => simp [checkThresholds, strTruthy, and_assoc]

/-- Witness for `evaluateWithRagas_spec`: scores exactly at the three targets
pass, and a timed-out judge call yields `passed = false`. -/
theorem evaluateWithRagas_spec_witness :
    checkThresholds
        { faithfulness := some 0.85, answer_relevancy := some 0.80,
          context_precision := some 0.75, error := none } = true
    ∧ (evaluateWithRagas { question := "q", answer := "a", contexts := [] } 5
        (Except.error "RAGAS evaluation timed out after 60000ms")).passed
      = false := by
  constructor
  · exact (evaluateWithRagas_spec
      { faithfulness := some 0.85, answer_relevancy := some 0.80,
        context_precision := some 0.75, error := none }
      (by simp) { question := "q", answer := "a", contexts := [] } 5 "x").1.mpr
      ⟨rfl, 0.85, 0.80, 0.75, rfl, rfl, rfl, le_refl _, le_refl _, le_refl _⟩
  · exact (evaluateWithRagas_spec
      { faithfulness := some 0.85, answer_relevancy := some 0.80,
        context_precision := some 0.75, error := none }
      (by simp) { question := "q", answer := "a", contexts := [] } 5
      "RAGAS evaluation timed out after 60000ms").2.2.2

/-! ## C9: `aggregateResults` -/

structure RagasAverages where
  faithfulness : ℚ
  answer_relevancy : ℚ
  context_precision : ℚ
deriving DecidableEq

structure AggregateSummary where
  count : ℕ
  passed : ℕ
  failed : ℕ
  passRate : ℚ
  averages : RagasAverages
deriving DecidableEq

/-- Function `aggregateResults` from `src/lib/evaluation/ragas.ts`: filter to
non-error records, count passes, `reduce` the score sums (`?? 0`), and guard
every division by `count > 0`. -/
def aggregateResults (results : List RagasEvaluationResult) :
    AggregateSummary :=
  let validResults := results.filter (fun r => !strTruthy r.scores.error)
  let passedResults := validResults.filter (fun r => r.passed)
  let sum := validResults.foldl
    (fun acc r =>
      { faithfulness := acc.faithfulness + r.scores.faithfulness.getD 0
        answer_relevancy :=
          acc.answer_relevancy + r.scores.answer_relevancy.getD 0
        context_precision :=
          acc.context_precision + r.scores.context_precision.getD 0 })
    ({ faithfulness := 0, answer_relevancy := 0, context_precision := 0 } :
      RagasAverages)
  let count := validResults.length
  { count := results.length
    passed := passedResults.length
    failed := results.length - passedResults.length
    passRate :=
      if 0 < count then (passedResults.length : ℚ) / (count : ℚ) else 0
    averages :=
      { faithfulness :=
          if 0 < count then sum.faithfulness / (count : ℚ) else 0
        answer_relevancy :=
          if 0 < count then sum.answer_relevancy / (count : ℚ) else 0
        context_precision :=
          if 0 < count then sum.context_precision / (count : ℚ) else 0 } }

/-- C9. The per-metric averages depend only on the records whose `error`
is unset (filtering the input to the non-error records leaves every average
unchanged); with zero valid records every average is `0`; and on the empty
input the summary is all zeros — `count`, `passed`, `failed` and `passRate`
included — with no division by zero (each division is guarded by
`count > 0`). -/
theorem aggregateResults_spec :
    (∀ results : List RagasEvaluationResult,
        (aggregateResults results).averages
          = (aggregateResults (results.filter
              (fun r => !strTruthy r.scores.error))).averages)
    ∧ (∀ results : List RagasEvaluationResult,
        results.filter (fun r => !strTruthy r.scores.error) = [] →
          (aggregateResults results).averages
            = { faithfulness := 0, answer_relevancy := 0,
                context_precision := 0 })
    ∧ aggregateResults []
        = { count := 0, passed := 0, failed := 0, passRate := 0,
            averages := { faithfulness := 0, answer_relevancy := 0,
                          context_precision := 0 } } := by
  refine ⟨?_, ?_, rfl⟩
  · intro results
    have hff : (results.filter (fun r => !strTruthy r.scores.error)).filter
          (fun r => !strTruthy r.scores.error)
        = results.filter (fun r => !strTruthy r.scores.error) := by
      rw [List.filter_filter]
      simp
    simp only [aggregateResults, hff]
  · intro results hnil
    simp only [aggregateResults, hnil]
    rfl

/-- Witness for `aggregateResults_spec` at a list whose only record carries an
error. -/
theorem aggregateResults_spec_witness :
    (aggregateResults
        [{ input := { question := "q", answer := "a", contexts := [] }
           scores := { faithfulness := none, answer_relevancy := none,
                       context_precision := none, error := some "boom" }
           durationMs := 3
           passed := false }]).averages
      = { faithfulness := 0, answer_relevancy := 0, context_precision := 0 } :=
  aggregateResults_spec.2.1
    [{ input := { question := "q", answer := "a", contexts := [] }
       scores := { faithfulness := none, answer_relevancy := none,
                   context_precision := none, error := some "boom" }
       durationMs := 3
       passed := false }] (by decide)

/-! ## C10: `evaluateBatch` -/

/-- Function `evaluateBatch` from `src/lib/evaluation/ragas.ts`: slice the inputs into
chunks of `concurrency`, `Promise.all` each chunk (which resolves in input
order) and push the chunk results in order.  `f` is the per-input evaluation
(`evaluateWithRagas`, which always resolves).  The `concurrency = 0` guard
marks the case where the JS `for` loop (`i += concurrency`) would never
terminate; the behaviour claimed is for `concurrency ≥ 1`. -/
def evaluateBatch (f : RagasInput → RagasEvaluationResult) (concurrency : ℕ)
    (inputs : List RagasInput) : List RagasEvaluationResult :=
  if concurrency = 0 then []
  else if hin : inputs = [] then []
  else
    (inputs.take concurrency).map f
      ++ evaluateBatch f concurrency (inputs.drop concurrency)
termination_by inputs.length
decreasing_by
  rw [List.length_drop]
  have h1 : inputs.length ≠ 0 := fun h0 => hin (List.length_eq_zero.mp h0)
  omega

/-- C10. For any `concurrency ≥ 1`, `evaluateBatch` returns exactly the
per-input results in input order — the `i`-th output is the evaluation of
the `i`-th input, across and within chunks — and, being a total function of
the per-input outcomes, it never throws. -/
theorem evaluateBatch_eq_map (f : RagasInput → RagasEvaluationResult)
    (c : ℕ) (hc : 1 ≤ c) (inputs : List RagasInput) :
    evaluateBatch f c inputs = inputs.map f := by
  have hgen : ∀ (n : ℕ) (l : List RagasInput), l.length ≤ n →
      evaluateBatch f c l = l.map f := by
    intro n
    induction n with
    | zero =>
      intro l hl
      have h0 : l = [] := List.length_eq_zero.mp (Nat.le_zero.mp hl)
      subst h0
      rw [evaluateBatch]
      simp
    | succ n ih =>
      intro l hl
      by_cases hl0 : l = []
      · subst hl0
        rw [evaluateBatch]
        simp
      · have hc0 : ¬ c = 0 := by omega
        rw [evaluateBatch, if_neg hc0, dif_neg hl0,
          ih (l.drop c) ?_, ← List.map_append, List.take_append_drop]
        rw [List.length_drop]
        have h1 : l.length ≠ 0 := fun h0 => hl0 (List.length_eq_zero.mp h0)
        omega
  exact hgen inputs.length inputs (le_refl _)

/-- Witness for `evaluateBatch_eq_map` at concurrency `3` on a one-element
batch whose evaluation failed. -/
theorem evaluateBatch_eq_map_witness :
    evaluateBatch
        (fun i => evaluateWithRagas i 0 (Except.error "e")) 3
        [{ question := "q", answer := "a", contexts := [] }]
      = [evaluateWithRagas { question := "q", answer := "a", contexts := [] }
          0 (Except.error "e")] :=
  evaluateBatch_eq_map (fun i => evaluateWithRagas i 0 (Except.error "e")) 3
    (by decide) [{ question := "q", answer := "a", contexts := [] }]

end LennyTapes
